import Mathlib

/-!
Verification development for the `crdt-enc` repository: an encrypted,
offline-capable, multi-writer replicated store whose state is a CRDT.

The definitions below are a shallow embedding of the Rust sources:
  * `src/crdt-enc/src/lib.rs`             — the replica engine (`Core`)
  * `src/crdt-enc/src/key_cryptor.rs`     — the key registry CRDT (`Keys`)
  * `src/crdt-enc/src/utils/version_bytes.rs` — the `VersionBytes` framing
  * `src/crdt-enc-tokio/src/lib.rs`       — the filesystem blob-store driver

Machine integers (`u64`, `u128`) are modelled as `Nat` (the code never
relies on wraparound: versions and counters only grow by one).  Byte
buffers are `List Nat`.  UUIDs (`uuid::Uuid`, a 128-bit value ordered
bytewise big-endian, i.e. numerically as a `u128`) are modelled as `Nat`.

The CRDT primitives (`VClock`, `MVReg`, `Orswot`) come from the `crdts`
crate the repository depends on; they are embedded here following that
crate's semantics, restricted to the operations this repository uses
(`Orswot` removals and deferred operations are never used by the core and
are not modelled).
-/

namespace CrdtEnc

/-- 128-bit UUID, ordered numerically (= bytewise big-endian order). -/
abbrev Uuid := Nat

/-- A byte buffer; each element is one byte. -/
abbrev Bytes := List Nat

/-! ### Vector clocks (`crdts::VClock`) -/

/-- First-match lookup in an association list, defaulting to 0
(`VClock::get` returns 0 for an absent actor). -/
def lookup0 : List (Uuid × Nat) → Uuid → Nat
  | [], _ => 0
  | p :: ps, a => if p.1 = a then p.2 else lookup0 ps a

/-- Does the association list contain the key? -/
def hasKey : List (Uuid × Nat) → Uuid → Bool
  | [], _ => false
  | p :: ps, a => p.1 = a || hasKey ps a

/-- Raise every entry with the given key to at least `n`. -/
def bumpEntry : List (Uuid × Nat) → Uuid → Nat → List (Uuid × Nat)
  | [], _, _ => []
  | p :: ps, a, n =>
    if p.1 = a then (p.1, max p.2 n) :: bumpEntry ps a n
    else p :: bumpEntry ps a n

/-- `crdts::VClock<Uuid>`: a per-actor monotone counter map. -/
structure VClock where
  entries : List (Uuid × Nat)
deriving Repr, DecidableEq

/-- The empty vector clock. -/
def VClock.empty : VClock := ⟨[]⟩

/-- `VClock::get`: the counter for an actor, 0 when absent. -/
def VClock.get (c : VClock) (a : Uuid) : Nat := lookup0 c.entries a

/-- `VClock::inc`: the successor dot for an actor (does not mutate). -/
def VClock.inc (c : VClock) (a : Uuid) : Uuid × Nat := (a, c.get a + 1)

/-- `VClock::apply(dot)`: raise the actor's counter to
`max(current, dot.counter)`, inserting the entry when absent. -/
def VClock.applyDot (c : VClock) (d : Uuid × Nat) : VClock :=
  if hasKey c.entries d.1 then ⟨bumpEntry c.entries d.1 d.2⟩
  else ⟨c.entries ++ [d]⟩

/-- `VClock::merge`: apply every dot of the other clock. -/
def VClock.merge (c other : VClock) : VClock :=
  other.entries.foldl VClock.applyDot c

/-- The executable partial-order test used by `crdts`
(`self ≤ other` iff every dot of `self` is dominated by `other`). -/
def VClock.leb (c1 c2 : VClock) : Bool :=
  c1.entries.all (fun p => p.2 ≤ c2.get p.1)

/-! ### Multi-value registers (`crdts::MVReg`) -/

/-- `crdts::MVReg<V, Uuid>`: a list of values, each tagged with the
vector clock of the write that produced it. -/
structure MVReg (V : Type) where
  vals : List (VClock × V)
deriving Repr, DecidableEq

/-- `MVReg::read().val`: all currently concurrent values, in list order. -/
def MVReg.readVals {V : Type} (r : MVReg V) : List V := r.vals.map (·.2)

/-- `MVReg::read().add_clock`: the merge of all value clocks. -/
def MVReg.readClock {V : Type} (r : MVReg V) : VClock :=
  r.vals.foldl (fun acc p => acc.merge p.1) VClock.empty

/-- The empty register (`MVReg::default`). -/
def MVReg.empty {V : Type} : MVReg V := ⟨[]⟩

/-- `crdts::ctx::AddCtx`: a write context (full causal clock plus the
fresh dot of the writing actor). -/
structure AddCtx where
  clock : VClock
  dot : Uuid × Nat
deriving Repr, DecidableEq

/-- `ReadCtx::derive_add_ctx(actor)`: increment the actor's entry in the
read clock and remember the fresh dot. -/
def deriveAddCtx (readClock : VClock) (actor : Uuid) : AddCtx :=
  let d := readClock.inc actor
  ⟨readClock.applyDot d, d⟩

/-- `MVReg::apply(Op::Put { clock, val })`: drop every value dominated by
the put clock, then keep the put unless an existing value dominates it.
(`MVReg::write(val, ctx)` produces exactly this `Put` with `ctx.clock`.) -/
def MVReg.applyPut {V : Type} (r : MVReg V) (clock : VClock) (v : V) : MVReg V :=
  if clock.entries.isEmpty then r
  else
    let kept := r.vals.filter (fun p => ! p.1.leb clock)
    if kept.any (fun p => clock.leb p.1) then ⟨kept⟩
    else ⟨kept ++ [(clock, v)]⟩

/-! ### `VersionBytes` values and keys (`utils/version_bytes.rs`, `key_cryptor.rs`) -/

/-- `VersionBytes(Uuid, Vec<u8>)`: a version-tagged byte blob
(the in-memory value; its wire framing is modelled further below). -/
structure VersionBytes where
  version : Uuid
  bytes : Bytes
deriving Repr, DecidableEq

/-- `Key { id: Uuid, key: VersionBytes }` from `key_cryptor.rs`.  In Rust,
equality, hashing and ordering of `Key` use `id` only. -/
structure Key where
  id : Uuid
  key : VersionBytes
deriving Repr, DecidableEq

/-! ### Observed-remove set of keys (`crdts::Orswot<Key, Uuid>`)

The core only ever adds keys, so removals and deferred operations are
not modelled.  The entries map is keyed by the member; for `Key` the
Rust `Ord`/`Eq` instances compare ids only, so the map is keyed by id. -/

/-- `crdts::Orswot<Key, Uuid>`: the set version vector plus one causal
clock per member. -/
structure Orswot where
  clock : VClock
  entries : List (Key × VClock)
deriving Repr, DecidableEq

/-- The empty set (`Orswot::default`). -/
def Orswot.empty : Orswot := ⟨VClock.empty, []⟩

/-- `Orswot::read().val`: the current members. -/
def Orswot.readVals (s : Orswot) : List Key := s.entries.map (·.1)

/-- Insert or update one member entry; an existing entry with the same id
keeps its original `Key` value (Rust's `BTreeMap::entry` keeps the
existing key object since `Key` equality is id-only). -/
def addEntry : List (Key × VClock) → Key → (Uuid × Nat) → List (Key × VClock)
  | [], k, d => [(k, VClock.empty.applyDot d)]
  | (k0, vc) :: rest, k, d =>
    if k0.id = k.id then (k0, vc.applyDot d) :: rest
    else (k0, vc) :: addEntry rest k d

/-- `Orswot::apply(Op::Add { dot, member })`: ignore an already-seen dot,
otherwise record the member under the dot and advance the set clock.
(`Orswot::add(member, ctx)` produces exactly this `Add` with `ctx.dot`.) -/
def Orswot.applyAdd (s : Orswot) (d : Uuid × Nat) (member : Key) : Orswot :=
  if d.2 ≤ s.clock.get d.1 then s
  else { clock := s.clock.applyDot d, entries := addEntry s.entries member d }

/-! ### The key registry CRDT (`Keys`, `key_cryptor.rs`) -/

/-- `Keys { latest_key_id: MVReg<Uuid, Uuid>, keys: Orswot<Key, Uuid> }`. -/
structure Keys where
  latest_key_id : MVReg Uuid
  keys : Orswot
deriving Repr, DecidableEq

/-- The empty registry (`Keys::default`). -/
def Keys.empty : Keys := ⟨MVReg.empty, Orswot.empty⟩

/-- `Keys::merge`: pointwise merge of the register and the set.  The
register merge and set merge of `crdts` are not needed by any claim
below beyond congruence, so they are kept abstract via this interface
point: the claims quantify over already-merged `Keys` values. -/
def Keys.mergedEq (k1 k2 : Keys) : Prop := k1 = k2

/-- `HashSet::take(&id)` on the member set: remove and return the key
whose id matches, scanning in order. -/
def takeById : List Key → Uuid → Option Key × List Key
  | [], _ => (none, [])
  | k :: ks, i =>
    if k.id = i then (some k, ks)
    else
      let r := takeById ks i
      (r.1, k :: r.2)

/-- The `flat_map(|id| keys.take(&id))` loop of `Keys::latest_key`:
resolve each current latest-id to a key, consuming keys as `take` does. -/
def resolveIds : List Uuid → List Key → List Key
  | [], _ => []
  | i :: ids, keys =>
    match takeById keys i with
    | (some k, rest) => k :: resolveIds ids rest
    | (none, _) => resolveIds ids keys

/-- One step of Rust `Iterator::min` on keys ordered by id. -/
def minStep (acc : Option Key) (k : Key) : Option Key :=
  match acc with
  | none => some k
  | some m => if k.id < m.id then some k else some m

/-- Rust `Iterator::min` on keys ordered by id: the first minimal
element. -/
def minByIdFirst (l : List Key) : Option Key := l.foldl minStep none

/-- `Keys::latest_key`: read all current values of `latest_key_id`, look
each up in (and take it from) the key set, and return the minimum by
UUID order. -/
def Keys.latestKey (ks : Keys) : Option Key :=
  minByIdFirst (resolveIds ks.latest_key_id.readVals ks.keys.readVals)

/-- `Keys::get_key`. -/
def Keys.getKey (ks : Keys) (keyId : Uuid) : Option Key :=
  (takeById ks.keys.readVals keyId).1

/-- `Keys::insert_latest_key(actor, new_key)`: add the key to the set
with a context derived from the set's read context, then write its id
into the latest-id register with a context derived from the register's
read context. -/
def Keys.insertLatestKey (ks : Keys) (actor : Uuid) (newKey : Key) : Keys :=
  let ctx1 := deriveAddCtx ks.keys.clock actor
  let keys1 := ks.keys.applyAdd ctx1.dot newKey
  let ctx2 := deriveAddCtx ks.latest_key_id.readClock actor
  let reg1 := ks.latest_key_id.applyPut ctx2.clock newKey.id
  ⟨reg1, keys1⟩

/-- The resolution step `latest_key` performs, written following the
specification's words only: read all current values of `latest_key_id`,
look each up in the keys set, and return the resolved key with the
smallest UUID ordering.  Used to compare the source's implementation
(with its set-consuming `take`) against the specified behaviour. -/
def Keys.specLatestKey (ks : Keys) : Option Key :=
  minByIdFirst
    (ks.latest_key_id.readVals.filterMap
      (fun i => ks.keys.readVals.find? (fun k => k.id == i)))

/-! ### Replica engine (`Core`, `lib.rs`)

The engine's asynchronous capabilities (storage, cryptor) enter the
model as function parameters; each engine operation is a function from
the replica record (`CoreMutData`) to the record after the call paired
with the call's outcome.  The `.unwrap()` calls the source performs on
cipher results are modelled by the `panic` outcome (a Rust panic
unwinds; it does not return an error to the caller). -/

/-- The core's own storage-format version (`CURRENT_VERSION`). -/
def CURRENT_VERSION : Uuid := 0xe834d789101b463498239de990a9051f

/-- The sorted supported storage-format versions (`SUPPORTED_VERSIONS`). -/
def SUPPORTED_VERSIONS : List Uuid := [CURRENT_VERSION]

/-- `ensure_versions`: membership of the version in the sorted supported
set (the source uses `binary_search`, which on a sorted slice is
membership). -/
def ensureVersionsB (v : Uuid) (versions : List Uuid) : Bool := versions.contains v

/-- The 16 big-endian bytes of a 128-bit value, most significant first
(`Uuid::as_bytes`). -/
def natToBytesBE : Nat → Nat → Bytes
  | 0, _ => []
  | w + 1, u => (u / 256 ^ w) % 256 :: natToBytesBE w (u % 256 ^ w)

/-- `Uuid::as_bytes`. -/
def uuidBytes (u : Uuid) : Bytes := natToBytesBE 16 u

/-- `Uuid::from_bytes`: big-endian reconstruction. -/
def uuidFromBytes (bs : Bytes) : Uuid := bs.foldl (fun acc b => acc * 256 + b) 0

/-- The framed wire bytes of a `VersionBytes` value: 16 version bytes
followed by the payload (`VersionBytes::serialize` / the `buf()` byte
source; proved below to agree with the chunked `Buf` consumption). -/
def VersionBytes.toVec (vb : VersionBytes) : Bytes := uuidBytes vb.version ++ vb.bytes

/-- `VersionBytesRef::from_slice` on raw bytes: fails on fewer than 16
bytes, otherwise splits version prefix and payload. -/
def versionBytesFromSlice (slice : Bytes) : Except String (Uuid × Bytes) :=
  if slice.length < 16 then .error "invalid length"
  else .ok (uuidFromBytes (slice.take 16), slice.drop 16)

/-- `LocalMeta { local_actor_id }`. -/
structure LocalMeta where
  local_actor_id : Uuid
deriving Repr, DecidableEq

/-- `RemoteMeta`: three independent multi-value registers. -/
structure RemoteMeta where
  storage : MVReg VersionBytes
  cryptor : MVReg VersionBytes
  key_cryptor : MVReg VersionBytes
deriving Repr, DecidableEq

/-- `StateWrapper<S>`: the user CRDT plus the per-actor next op
versions. -/
structure StateWrapper (σ : Type) where
  next_op_versions : VClock
  state : σ
deriving DecidableEq

/-- `CoreMutData<S>`: the complete mutable replica record.  The two
read-name `HashSet`s are modelled as duplicate-free lists. -/
structure CoreMutData (σ : Type) where
  local_meta : Option LocalMeta
  remote_meta : RemoteMeta
  keys : Keys
  state : StateWrapper σ
  read_states : List String
  read_remote_metas : List String
deriving DecidableEq

/-- Result of one engine call: normal return, error return, or a Rust
panic (from an `.unwrap()` on an error value). -/
inductive Outcome (α : Type) where
  | ok (val : α)
  | err (msg : String)
  | panic
deriving Repr, DecidableEq

/-- `Core::apply_ops` (`lib.rs` 669–719), after the apply-ops lock is
taken: serialize and frame the ops with `current_data_version`, look up
the latest key (error when absent), encrypt (the source `.unwrap()`s
here: an encryption error panics), wrap the ciphertext with
`CURRENT_VERSION`, read the local actor and reserve its next version,
durably store the op blob (error aborts with no mutation), and only then
apply the ops and bump the actor's clock entry. -/
def applyOps {σ Op : Type}
    (applyOp : σ → Op → σ)
    (serializeOps : List Op → Bytes)
    (encrypt : Key → Bytes → Except String Bytes)
    (storeOps : Uuid → Nat → VersionBytes → Except String Unit)
    (currentDataVersion : Uuid)
    (d : CoreMutData σ) (ops : List Op) : CoreMutData σ × Outcome Unit :=
  let clearText : VersionBytes := ⟨currentDataVersion, serializeOps ops⟩
  match d.keys.latestKey with
  | none => (d, .err "no latest key")
  | some key =>
    match encrypt key clearText.toVec with
    | .error _ => (d, .panic)
    | .ok dataEncBytes =>
      let dataEnc : VersionBytes := ⟨CURRENT_VERSION, dataEncBytes⟩
      match d.local_meta with
      | none => (d, .err "local meta not loaded")
      | some lm =>
        let actor := lm.local_actor_id
        let version := d.state.next_op_versions.get actor
        match storeOps actor version dataEnc with
        | .error e => (d, .err e)
        | .ok _ =>
          let newState := ops.foldl applyOp d.state.state
          let newVc := d.state.next_op_versions.applyDot
            (d.state.next_op_versions.inc actor)
          ({ d with state := ⟨newVc, newState⟩ }, .ok ())

/-- The op dots `Core::compact` removes: for every actor entry of
`next_op_versions`, the single dot `(actor, counter - 1)`
(`lib.rs` 351–357). -/
def compactOpsToRemove (vc : VClock) : List (Uuid × Nat) :=
  vc.entries.map (fun dot => (dot.1, dot.2 - 1))

/-- `Core::compact` (`lib.rs` 344–387) after its initial `read_remote()`
catch-up: snapshot the serialized state wrapper, the read state names and
the op dots to remove, look up the latest key (error when absent),
encrypt (`.unwrap()` in the source: an encryption error panics), store
the new state snapshot first, then remove old states and ops, and
finally replace the removed names by the new snapshot's name in
`read_states`. -/
def compactBody {σ : Type}
    (serializeState : StateWrapper σ → Bytes)
    (encrypt : Key → Bytes → Except String Bytes)
    (storeState : VersionBytes → Except String String)
    (removeStates : List String → Except String (List String))
    (removeOps : List (Uuid × Nat) → Except String Unit)
    (currentDataVersion : Uuid)
    (d : CoreMutData σ) : CoreMutData σ × Outcome Unit :=
  let clearText := serializeState d.state
  let statesToRemove := d.read_states
  let opsToRemove := compactOpsToRemove d.state.next_op_versions
  match d.keys.latestKey with
  | none => (d, .err "no latest key")
  | some key =>
    match encrypt key clearText with
    | .error _ => (d, .panic)
    | .ok dataEncBytes =>
      let encData : VersionBytes := ⟨currentDataVersion, dataEncBytes⟩
      match storeState encData with
      | .error e => (d, .err e)
      | .ok newStateName =>
        match removeStates statesToRemove, removeOps opsToRemove with
        | .ok removedStates, .ok _ =>
          let kept := d.read_states.filter (fun n => ! removedStates.contains n)
          ({ d with read_states := kept.insert newStateName }, .ok ())
        | .error e, _ => (d, .err e)
        | _, .error e => (d, .err e)

/-- The decode phase of `Core::read_remote_ops` (`lib.rs` 493–514): for
each loaded `(actor, version, blob)`, check the outer framing version,
decrypt (`.unwrap()` in the source: a decryption error panics), parse the
clear text's framing, check it against the supported data versions, and
deserialize the op list. -/
def readRemoteOpsDecode {Op : Type}
    (decrypt : Key → Bytes → Except String Bytes)
    (deserializeOps : Bytes → Except String (List Op))
    (supportedDataVersions : List Uuid)
    (key : Key) :
    List (Uuid × Nat × VersionBytes) → Outcome (List (Uuid × Nat × List Op))
  | [] => .ok []
  | (actor, version, data) :: rest =>
    if ensureVersionsB data.version SUPPORTED_VERSIONS then
      match decrypt key data.bytes with
      | .error _ => .panic
      | .ok clearText =>
        match versionBytesFromSlice clearText with
        | .error e => .err e
        | .ok (v, payload) =>
          if ensureVersionsB v supportedDataVersions then
            match deserializeOps payload with
            | .error e => .err e
            | .ok ops =>
              match readRemoteOpsDecode decrypt deserializeOps
                  supportedDataVersions key rest with
              | .ok restOps => .ok ((actor, version, ops) :: restOps)
              | .err e => .err e
              | .panic => .panic
          else .err "version check failed"
    else .err "version check failed"

/-- The commit phase of `Core::read_remote_ops` (`lib.rs` 516–544):
process decoded entries in order; a version below the actor's expected
next version is skipped, a version above it fails the call, and an exact
match applies every op and increments the actor's clock entry. -/
def readRemoteOpsCommit {σ Op : Type} (applyOp : σ → Op → σ) :
    List (Uuid × Nat × List Op) → StateWrapper σ → Bool →
      Except String (StateWrapper σ × Bool)
  | [], sw, opsRead => .ok (sw, opsRead)
  | (actor, version, ops) :: rest, sw, opsRead =>
    let expectedVersion := sw.next_op_versions.get actor
    if version < expectedVersion then
      readRemoteOpsCommit applyOp rest sw opsRead
    else if expectedVersion < version then
      .error "Unexpected op version. Got ops in the wrong order? Bug in storage?"
    else
      let newState := ops.foldl applyOp sw.state
      let newVc := sw.next_op_versions.applyDot (sw.next_op_versions.inc actor)
      readRemoteOpsCommit applyOp rest ⟨newVc, newState⟩ true

/-- The key-bootstrap step of `Core::open` (`lib.rs` 308–319): when the
registry has no latest key after the remote-meta catch-up, generate a
fresh key and insert it for the local actor. -/
def openKeysBootstrap (actor : Uuid) (newKey : Key) (ks : Keys) : Keys :=
  if ks.latestKey.isNone then ks.insertLatestKey actor newKey else ks

/-! ### Filesystem blob-store driver (`crdt-enc-tokio/src/lib.rs`)

A directory of blobs is modelled as the list of names present. -/

/-- `Storage::remove_states` (`crdt-enc-tokio` 187–208): remove each
requested state file, treating not-found as success, and return — as the
"removed" list — the *requested* `names` verbatim (`Ok(names)`).  The
result is the remaining store contents paired with the returned list. -/
def removeStatesTokio (store : List String) (names : List String) :
    List String × List String :=
  (store.filter (fun n => ! names.contains n), names)

/-- `Storage::remove_ops` (`crdt-enc-tokio` 301–321): remove exactly the
listed `(actor, version)` files, treating not-found as success.  The
result is the remaining op files. -/
def removeOpsTokio (store : List (Uuid × Nat)) (names : List (Uuid × Nat)) :
    List (Uuid × Nat) :=
  store.filter (fun e => ! names.contains e)

/-! ### `VersionBytes` wire framing (`utils/version_bytes.rs`) -/

/-- `VERSION_LEN`. -/
def VERSION_LEN : Nat := 16

/-- `VersionBytesBuf`: a positioned gather byte source over the 16
version bytes followed by the payload. -/
structure VersionBytesBuf where
  pos : Nat
  version : Bytes
  content : Bytes
deriving Repr, DecidableEq

/-- `VersionBytesBuf::new` (stores `*version.as_bytes()`). -/
def VersionBytesBuf.new (version : Uuid) (content : Bytes) : VersionBytesBuf :=
  ⟨0, uuidBytes version, content⟩

/-- `Buf::remaining`. -/
def VersionBytesBuf.remaining (b : VersionBytesBuf) : Nat :=
  VERSION_LEN + b.content.length - b.pos

/-- `Buf::chunk`. -/
def VersionBytesBuf.chunk (b : VersionBytesBuf) : Bytes :=
  if b.pos < VERSION_LEN then b.version.drop b.pos
  else
    let pos := b.pos - VERSION_LEN
    if b.content.length ≤ pos then [] else b.content.drop pos

/-- `Buf::advance` (the source's assertion `cnt <= remaining` appears as
a hypothesis of the theorems using this). -/
def VersionBytesBuf.advance (b : VersionBytesBuf) (cnt : Nat) : VersionBytesBuf :=
  { b with pos := b.pos + cnt }

/-- `Buf::chunks_vectored` with room for `n` io-slices: the list of
slices written. -/
def VersionBytesBuf.chunksVectored (b : VersionBytesBuf) (n : Nat) : List Bytes :=
  if n = 0 then []
  else if b.pos < VERSION_LEN then
    if n = 1 then [b.version.drop b.pos]
    else [b.version.drop b.pos, b.content]
  else
    let pos := b.pos - VERSION_LEN
    if b.content.length = pos then [] else [b.content.drop pos]

/-- The loop of `VersionBytesRef::serialize`: while bytes remain, append
the current chunk and advance past it.  The loop consumes at least one
byte per iteration, so `remaining + 1` fuel always suffices. -/
def serializeLoop : Nat → VersionBytesBuf → Bytes
  | 0, _ => []
  | fuel + 1, b =>
    if 0 < b.remaining then
      b.chunk ++ serializeLoop fuel (b.advance b.chunk.length)
    else []

/-- `VersionBytesRef::serialize`. -/
def versionBytesSerialize (version : Uuid) (content : Bytes) : Bytes :=
  serializeLoop ((VersionBytesBuf.new version content).remaining + 1)
    (VersionBytesBuf.new version content)

/-- An arbitrary chunked consumption of the byte source: at each step
read some prefix of the current chunk and advance by its length; succeed
when every byte has been consumed. -/
def consumeBuf : VersionBytesBuf → List Nat → Option Bytes
  | b, [] => if b.remaining = 0 then some [] else none
  | b, k :: ks =>
    if k ≤ b.chunk.length then
      (consumeBuf (b.advance k) ks).map (fun rest => b.chunk.take k ++ rest)
    else none

/-! ### Concrete example values used by the claim witnesses -/

/-- A concrete key: id 5, material tagged with the core version. -/
def exampleKey : Key := ⟨5, ⟨CURRENT_VERSION, [1]⟩⟩

/-- A registry holding `exampleKey` as the latest key, inserted by
actor 7. -/
def exampleKeys : Keys := Keys.empty.insertLatestKey 7 exampleKey

/-- A replica record for actor 7 that has already folded ops 0, 1 and 2
of actor 7 into its state (`next_op_versions = {7 ↦ 3}`). -/
def exampleData : CoreMutData Nat :=
  { local_meta := some ⟨7⟩
  , remote_meta := ⟨MVReg.empty, MVReg.empty, MVReg.empty⟩
  , keys := exampleKeys
  , state := ⟨⟨[(7, 3)]⟩, 0⟩
  , read_states := ["s1", "s2"]
  , read_remote_metas := [] }

/-- A registry whose `latest_key_id` register holds one dangling value
(id 99, no such key) and one resolvable value (id 5). -/
def mixedKeys : Keys :=
  { latest_key_id := ⟨[(⟨[(1, 1)]⟩, 99), (⟨[(2, 1)]⟩, 5)]⟩
  , keys := ⟨⟨[(2, 1)]⟩, [(⟨5, ⟨CURRENT_VERSION, [1]⟩⟩, ⟨[(2, 1)]⟩)]⟩ }

/-- A registry whose only `latest_key_id` value is dangling. -/
def danglingKeys : Keys :=
  { latest_key_id := ⟨[(⟨[(1, 1)]⟩, 99)]⟩
  , keys := Orswot.empty }

/-! ### The claims -/

/-! ### Lemmas and claim theorems -/

theorem lookup0_bumpEntry_same (l : List (Uuid × Nat)) (a : Uuid) (n : Nat)
    (h : hasKey l a = true) :
    lookup0 (bumpEntry l a n) a = max (lookup0 l a) n := by
  induction l with
  | nil => simp [hasKey] at h
  | cons p ps ih =>
    by_cases hp : p.1 = a
    · simp [bumpEntry, lookup0, hp]
    · simp [hasKey, hp] at h
      simp [bumpEntry, lookup0, hp, ih h]

theorem lookup0_bumpEntry_other (l : List (Uuid × Nat)) (a : Uuid) (n : Nat)
    (b : Uuid) (hb : b ≠ a) :
    lookup0 (bumpEntry l a n) b = lookup0 l b := by
  have hab : a ≠ b := fun h => hb h.symm
  induction l with
  | nil => simp [bumpEntry]
  | cons p ps ih =>
    by_cases hp : p.1 = a
    · simp [bumpEntry, lookup0, hp, hab, ih]
    · by_cases hpb : p.1 = b
      · simp [bumpEntry, lookup0, hp, hpb, hb, ih]
      · simp [bumpEntry, lookup0, hp, hpb, ih]

theorem lookup0_append_absent (l : List (Uuid × Nat)) (p : Uuid × Nat)
    (b : Uuid) (h : hasKey l b = false) :
    lookup0 (l ++ [p]) b = if p.1 = b then p.2 else 0 := by
  induction l with
  | nil => simp [lookup0]
  | cons q qs ih =>
    simp [hasKey] at h
    simp [lookup0, h.1, ih h.2]

theorem lookup0_absent (l : List (Uuid × Nat)) (b : Uuid)
    (h : hasKey l b = false) : lookup0 l b = 0 := by
  induction l with
  | nil => rfl
  | cons q qs ih =>
    simp [hasKey] at h
    simp [lookup0, h.1, ih h.2]

theorem lookup0_append_present (l : List (Uuid × Nat)) (p : Uuid × Nat)
    (b : Uuid) (h : hasKey l b = true) :
    lookup0 (l ++ [p]) b = lookup0 l b := by
  induction l with
  | nil => simp [hasKey] at h
  | cons q qs ih =>
    by_cases hq : q.1 = b
    · simp [lookup0, hq]
    · simp [hasKey, hq] at h
      simp [lookup0, hq, ih h]

/-- Characterisation of `VClock.applyDot` through `get`. -/
theorem VClock.applyDot_get (c : VClock) (a : Uuid) (n : Nat) (b : Uuid) :
    (c.applyDot (a, n)).get b = if b = a then max (c.get a) n else c.get b := by
  by_cases hk : hasKey c.entries a
  · by_cases hb : b = a
    · subst hb
      simp [VClock.applyDot, VClock.get, hk, lookup0_bumpEntry_same _ _ _ hk]
    · simp [VClock.applyDot, VClock.get, hk, lookup0_bumpEntry_other _ _ n _ hb, hb]
  · have hk' : hasKey c.entries a = false := by simpa using hk
    by_cases hb : b = a
    · subst hb
      simp [VClock.applyDot, VClock.get, hk', lookup0_append_absent _ _ _ hk',
        lookup0_absent _ _ hk']
    · by_cases hkb : hasKey c.entries b
      · simp [VClock.applyDot, VClock.get, hk', lookup0_append_present _ _ _ hkb, hb]
      · have hkb' : hasKey c.entries b = false := by simpa using hkb
        have hab : ¬a = b := fun h => hb h.symm
        simp [VClock.applyDot, VClock.get, hk', lookup0_append_absent _ _ _ hkb',
          lookup0_absent _ _ hkb', hb, hab]

theorem VClock.applyDot_get_mono (c : VClock) (d : Uuid × Nat) (b : Uuid) :
    c.get b ≤ (c.applyDot d).get b := by
  obtain ⟨a, n⟩ := d
  rw [VClock.applyDot_get]
  by_cases hb : b = a
  · subst hb; simp
  · simp [hb]

theorem foldl_applyDot_get_mono (l : List (Uuid × Nat)) (c : VClock) (b : Uuid) :
    c.get b ≤ (l.foldl VClock.applyDot c).get b := by
  induction l generalizing c with
  | nil => simp
  | cons d ds ih =>
    exact le_trans (VClock.applyDot_get_mono c d b) (ih (c.applyDot d))

theorem foldl_applyDot_get_mem (l : List (Uuid × Nat)) (c : VClock)
    (a : Uuid) (n : Nat) (h : (a, n) ∈ l) :
    n ≤ (l.foldl VClock.applyDot c).get a := by
  induction l generalizing c with
  | nil => simp at h
  | cons d ds ih =>
    rcases List.mem_cons.mp h with h | h
    · subst h
      refine le_trans ?_ (foldl_applyDot_get_mono ds (c.applyDot (a, n)) a)
      rw [VClock.applyDot_get]; simp
    · exact ih (c.applyDot d) h

theorem VClock.merge_get_mono (c o : VClock) (b : Uuid) :
    c.get b ≤ (c.merge o).get b :=
  foldl_applyDot_get_mono o.entries c b

theorem VClock.merge_get_mem (c o : VClock) (a : Uuid) (n : Nat)
    (h : (a, n) ∈ o.entries) : n ≤ (c.merge o).get a :=
  foldl_applyDot_get_mem o.entries c a n h

theorem bumpEntry_length (l : List (Uuid × Nat)) (a : Uuid) (n : Nat) :
    (bumpEntry l a n).length = l.length := by
  induction l with
  | nil => rfl
  | cons p ps ih => unfold bumpEntry; split <;> simp [ih]

theorem VClock.applyDot_entries_ne_nil (c : VClock) (d : Uuid × Nat) :
    (c.applyDot d).entries ≠ [] := by
  unfold VClock.applyDot
  by_cases hk : hasKey c.entries d.1
  · simp only [hk, if_true]
    intro h
    have hlen := congrArg List.length h
    rw [bumpEntry_length] at hlen
    cases hc : c.entries with
    | nil => rw [hc] at hk; simp [hasKey] at hk
    | cons p ps => rw [hc] at hlen; simp at hlen
  · simp [hk]

theorem foldl_merge_get_mono {V : Type} (vals : List (VClock × V))
    (acc : VClock) (a : Uuid) :
    acc.get a ≤ (vals.foldl (fun acc p => acc.merge p.1) acc).get a := by
  induction vals generalizing acc with
  | nil => simp
  | cons p ps ih =>
    exact le_trans (VClock.merge_get_mono acc p.1 a) (ih (acc.merge p.1))

theorem foldl_merge_readClock_mem {V : Type} (vals : List (VClock × V))
    (acc : VClock) (c : VClock) (v : V) (h : (c, v) ∈ vals)
    (a : Uuid) (n : Nat) (hn : (a, n) ∈ c.entries) :
    n ≤ (vals.foldl (fun acc p => acc.merge p.1) acc).get a := by
  induction vals generalizing acc with
  | nil => simp at h
  | cons p ps ih =>
    rcases List.mem_cons.mp h with h | h
    · subst h
      exact le_trans (VClock.merge_get_mem acc c a n hn)
        (foldl_merge_get_mono ps (acc.merge c) a)
    · exact ih (acc.merge p.1) h

/-- Every existing value clock is dominated (in the executable order
`leb`) by the clock of a write context derived from the register's own
read context. -/
theorem MVReg.valClock_leb_derived {V : Type} (r : MVReg V) (actor : Uuid)
    (c : VClock) (v : V) (h : (c, v) ∈ r.vals) :
    c.leb (deriveAddCtx r.readClock actor).clock = true := by
  unfold VClock.leb
  rw [List.all_eq_true]
  intro p hp
  obtain ⟨a, n⟩ := p
  have h1 : n ≤ r.readClock.get a :=
    foldl_merge_readClock_mem r.vals VClock.empty c v h a n hp
  have h2 : r.readClock.get a ≤ (deriveAddCtx r.readClock actor).clock.get a := by
    unfold deriveAddCtx
    simpa [VClock.inc] using
      VClock.applyDot_get_mono r.readClock (r.readClock.inc actor) a
  simpa using le_trans h1 h2

/-- `MVReg::write` with a context derived from the register's own read
context overwrites the whole register: the result holds exactly the
single new value. -/
theorem MVReg.applyPut_derived {V : Type} (r : MVReg V) (actor : Uuid) (v : V) :
    (r.applyPut (deriveAddCtx r.readClock actor).clock v).vals =
      [((deriveAddCtx r.readClock actor).clock, v)] := by
  set clock := (deriveAddCtx r.readClock actor).clock with hclock
  have hne : clock.entries ≠ [] := by
    rw [hclock]
    unfold deriveAddCtx
    exact VClock.applyDot_entries_ne_nil r.readClock (r.readClock.inc actor)
  have hkept : r.vals.filter (fun p => ! p.1.leb clock) = [] := by
    rw [List.filter_eq_nil_iff]
    intro p hp
    obtain ⟨c, v'⟩ := p
    simp [MVReg.valClock_leb_derived r actor c v' hp]
  have hne' : clock.entries.isEmpty = false := by
    cases hc : clock.entries with
    | nil => exact absurd hc hne
    | cons p ps => rfl
  unfold MVReg.applyPut
  simp [hne', hkept]

theorem MVReg.applyPut_derived_readVals {V : Type} (r : MVReg V) (actor : Uuid)
    (v : V) :
    (r.applyPut (deriveAddCtx r.readClock actor).clock v).readVals = [v] := by
  unfold MVReg.readVals
  rw [MVReg.applyPut_derived]
  rfl

theorem takeById_fst (keys : List Key) (i : Uuid) :
    (takeById keys i).1 = keys.find? (fun k => k.id == i) := by
  induction keys with
  | nil => rfl
  | cons k ks ih =>
    by_cases hk : k.id = i
    · have hkb : (k.id == i) = true := by simpa using hk
      simp [takeById, hk, List.find?_cons, hkb]
    · have hkb : (k.id == i) = false := by simpa using hk
      simp [takeById, hk, List.find?_cons, hkb, ih]

theorem takeById_snd_not_found (keys : List Key) (i : Uuid)
    (h : ∀ k ∈ keys, k.id ≠ i) : takeById keys i = (none, keys) := by
  induction keys with
  | nil => rfl
  | cons k ks ih =>
    have hk : k.id ≠ i := h k (by simp)
    have hks := ih (fun x hx => h x (by simp [hx]))
    simp [takeById, hk, hks]

theorem takeById_snd_of_nodup (keys : List Key) (i : Uuid)
    (h : (keys.map Key.id).Nodup) :
    (takeById keys i).2 = keys.filter (fun k => ! (k.id == i)) := by
  induction keys with
  | nil => rfl
  | cons k ks ih =>
    simp only [List.map_cons, List.nodup_cons] at h
    by_cases hk : k.id = i
    · have hrest : ks.filter (fun k => ! (k.id == i)) = ks := by
        rw [List.filter_eq_self]
        intro x hx
        have hxid : x.id ≠ i := by
          intro hxi
          exact h.1 (by rw [hk, ← hxi]; exact List.mem_map_of_mem Key.id hx)
        simp [hxid]
      have hkb : (k.id == i) = true := by simpa using hk
      simp [takeById, hk, List.filter_cons, hkb, hrest]
    · have hkb : (k.id == i) = false := by simpa using hk
      simp [takeById, hk, List.filter_cons, hkb, ih h.2]

theorem find?_filter_ne (keys : List Key) (i i' : Uuid) (h : i' ≠ i) :
    (keys.filter (fun k => ! (k.id == i))).find? (fun k => k.id == i') =
      keys.find? (fun k => k.id == i') := by
  induction keys with
  | nil => rfl
  | cons k ks ih =>
    by_cases hk : k.id = i
    · have hki' : (k.id == i') = false := by
        rw [hk]; simpa using fun hc => h hc.symm
      have hkb : (k.id == i) = true := by simpa using hk
      simp [List.filter_cons, List.find?_cons, hkb, hki', ih]
    · have hkb : (k.id == i) = false := by simpa using hk
      by_cases hk' : k.id = i'
      · have hki' : (k.id == i') = true := by simpa using hk'
        simp [List.filter_cons, List.find?_cons, hkb, hki']
      · have hki' : (k.id == i') = false := by simpa using hk'
        simp [List.filter_cons, List.find?_cons, hkb, hki', ih]

theorem resolveIds_cons_found (i : Uuid) (ids : List Uuid) (keys : List Key)
    (k : Key) (rest : List Key) (h : takeById keys i = (some k, rest)) :
    resolveIds (i :: ids) keys = k :: resolveIds ids rest := by
  simp [resolveIds, h]

theorem resolveIds_cons_none (i : Uuid) (ids : List Uuid) (keys : List Key)
    (h : (takeById keys i).1 = none) :
    resolveIds (i :: ids) keys = resolveIds ids keys := by
  rcases hr : takeById keys i with ⟨o, rest⟩
  rw [hr] at h
  simp only at h
  subst h
  simp [resolveIds, hr]

/-- The implementation's resolution loop agrees with the specification's
lookup formula when neither the current latest-id values nor the key
set's ids contain duplicates. -/
theorem resolveIds_eq_filterMap (ids : List Uuid) (keys : List Key)
    (hids : ids.Nodup) (hkeys : (keys.map Key.id).Nodup) :
    resolveIds ids keys =
      ids.filterMap (fun i => keys.find? (fun k => k.id == i)) := by
  induction ids generalizing keys with
  | nil => rfl
  | cons i ids ih =>
    simp only [List.nodup_cons] at hids
    cases hfind : keys.find? (fun k => k.id == i) with
    | none =>
      have hfst : (takeById keys i).1 = none := by rw [takeById_fst, hfind]
      rw [resolveIds_cons_none i ids keys hfst]
      simp [List.filterMap_cons, hfind, ih keys hids.2 hkeys]
    | some k =>
      have hfst : (takeById keys i).1 = some k := by rw [takeById_fst, hfind]
      rcases hto : takeById keys i with ⟨o, rest⟩
      rw [hto] at hfst
      simp only at hfst
      subst hfst
      have hrest : rest = keys.filter (fun k => ! (k.id == i)) := by
        have hsnd := takeById_snd_of_nodup keys i hkeys
        rw [hto] at hsnd
        simpa using hsnd
      rw [resolveIds_cons_found i ids keys k rest hto]
      have hkeys' : ((keys.filter (fun k => ! (k.id == i))).map Key.id).Nodup :=
        List.Nodup.sublist (List.Sublist.map Key.id (List.filter_sublist keys)) hkeys
      rw [hrest, ih _ hids.2 hkeys']
      simp only [List.filterMap_cons, hfind]
      congr 1
      apply List.filterMap_congr
      intro i' hi'
      exact find?_filter_ne keys i i' (fun hc => hids.1 (hc ▸ hi'))

theorem minStep_fold_some (l : List Key) (m0 : Key) :
    ∃ m, l.foldl minStep (some m0) = some m ∧ (m = m0 ∨ m ∈ l) ∧
      m.id ≤ m0.id ∧ ∀ c ∈ l, m.id ≤ c.id := by
  induction l generalizing m0 with
  | nil => exact ⟨m0, rfl, Or.inl rfl, le_refl _, by simp⟩
  | cons k ksl ih =>
    by_cases hk : k.id < m0.id
    · obtain ⟨m, hm, hmem, hle, hall⟩ := ih k
      refine ⟨m, by simpa [minStep, hk] using hm, ?_, le_trans hle (le_of_lt hk), ?_⟩
      · rcases hmem with h | h
        · exact Or.inr (by simp [h])
        · exact Or.inr (by simp [h])
      · intro c hc
        rcases List.mem_cons.mp hc with h | h
        · subst h; exact hle
        · exact hall c h
    · obtain ⟨m, hm, hmem, hle, hall⟩ := ih m0
      refine ⟨m, by simpa [minStep, hk] using hm, ?_, hle, ?_⟩
      · rcases hmem with h | h
        · exact Or.inl h
        · exact Or.inr (by simp [h])
      · intro c hc
        rcases List.mem_cons.mp hc with h | h
        · subst h; exact le_trans hle (le_of_not_lt hk)
        · exact hall c h

/-- `min` returns an element that is minimal in id order. -/
theorem minByIdFirst_spec (l : List Key) (m : Key) (h : minByIdFirst l = some m) :
    m ∈ l ∧ ∀ c ∈ l, m.id ≤ c.id := by
  cases l with
  | nil => simp [minByIdFirst] at h
  | cons k ksl =>
    obtain ⟨m', hm', hmem, hle, hall⟩ := minStep_fold_some ksl k
    unfold minByIdFirst at h
    rw [List.foldl_cons, show minStep none k = some k from rfl, hm'] at h
    cases h
    refine ⟨?_, ?_⟩
    · rcases hmem with h | h
      · simp [h]
      · simp [h]
    · intro c hc
      rcases List.mem_cons.mp hc with h | h
      · subst h; exact hle
      · exact hall c h

theorem addEntry_append (l : List (Key × VClock)) (k : Key) (d : Uuid × Nat)
    (h : ∀ p ∈ l, p.1.id ≠ k.id) :
    addEntry l k d = l ++ [(k, VClock.empty.applyDot d)] := by
  induction l with
  | nil => rfl
  | cons p ps ih =>
    obtain ⟨k0, vc⟩ := p
    have hp : k0.id ≠ k.id := h (k0, vc) (by simp)
    simp [addEntry, hp, ih (fun q hq => h q (by simp [hq]))]

/-- `Orswot::add` with a context derived from the set's own read
context, adding a member whose id is fresh, appends that member. -/
theorem Orswot.applyAdd_fresh (s : Orswot) (actor : Uuid) (k : Key)
    (hfresh : ∀ p ∈ s.entries, p.1.id ≠ k.id) :
    (s.applyAdd (deriveAddCtx s.clock actor).dot k).entries =
      s.entries ++ [(k, VClock.empty.applyDot (deriveAddCtx s.clock actor).dot)] := by
  unfold Orswot.applyAdd deriveAddCtx
  simp only [VClock.inc]
  rw [if_neg (by simp)]
  exact addEntry_append s.entries k _ hfresh

theorem resolveIds_singleton (i : Uuid) (keys : List Key) (k : Key)
    (h : (takeById keys i).1 = some k) : resolveIds [i] keys = [k] := by
  rcases hr : takeById keys i with ⟨o, rest⟩
  rw [hr] at h
  simp only at h
  subst h
  simp [resolveIds, hr]

/-- `insert_latest_key(actor, k)` followed by `latest_key()` yields `k`,
provided no key with `k`'s id is already present (as holds for the
freshly generated v4 UUIDs of `Key::new`). -/
theorem Keys.insertLatestKey_latestKey (ks : Keys) (actor : Uuid) (k : Key)
    (hfresh : ∀ p ∈ ks.keys.entries, p.1.id ≠ k.id) :
    (ks.insertLatestKey actor k).latestKey = some k := by
  unfold Keys.insertLatestKey Keys.latestKey
  simp only
  rw [MVReg.applyPut_derived_readVals ks.latest_key_id actor k.id]
  have hvals : (ks.keys.applyAdd (deriveAddCtx ks.keys.clock actor).dot k).readVals =
      ks.keys.readVals ++ [k] := by
    unfold Orswot.readVals
    rw [Orswot.applyAdd_fresh ks.keys actor k hfresh]
    simp
  rw [hvals]
  have hfind : (takeById (ks.keys.readVals ++ [k]) k.id).1 = some k := by
    rw [takeById_fst, List.find?_append]
    have h1 : ks.keys.readVals.find? (fun k2 => k2.id == k.id) = none := by
      rw [List.find?_eq_none]
      intro x hx
      obtain ⟨p, hp, hpx⟩ := List.mem_map.mp hx
      simpa [← hpx] using hfresh p hp
    rw [h1]
    simp [List.find?_cons]
  rw [resolveIds_singleton k.id _ k hfind]
  rfl

/-- When every current value of `latest_key_id` is dangling (resolves to
no key in the set), the resolution loop yields nothing. -/
theorem resolveIds_all_dangling (ids : List Uuid) (keys : List Key)
    (h : ∀ i ∈ ids, ∀ k ∈ keys, k.id ≠ i) : resolveIds ids keys = [] := by
  induction ids with
  | nil => rfl
  | cons i ids ih =>
    have hnone : takeById keys i = (none, keys) :=
      takeById_snd_not_found keys i (fun k hk => h i (by simp) k hk)
    rw [resolveIds_cons_none i ids keys (by rw [hnone])]
    exact ih (fun i' hi' k hk => h i' (by simp [hi']) k hk)

/-- `latest_key` returns `None` (it does not fail) when no current value
of `latest_key_id` resolves to a key in the set. -/
theorem Keys.latestKey_all_dangling (ks : Keys)
    (h : ∀ i ∈ ks.latest_key_id.readVals, ∀ k ∈ ks.keys.readVals, k.id ≠ i) :
    ks.latestKey = none := by
  unfold Keys.latestKey
  rw [resolveIds_all_dangling _ _ h]
  rfl

theorem natToBytesBE_length (w u : Nat) : (natToBytesBE w u).length = w := by
  induction w generalizing u with
  | zero => rfl
  | succ w ih => simp [natToBytesBE, ih]

theorem uuidBytes_length (u : Uuid) : (uuidBytes u).length = 16 :=
  natToBytesBE_length 16 u

theorem foldl_natToBytesBE (w : Nat) (u acc : Nat) (h : u < 256 ^ w) :
    (natToBytesBE w u).foldl (fun acc b => acc * 256 + b) acc =
      acc * 256 ^ w + u := by
  induction w generalizing u acc with
  | zero =>
    have : u = 0 := by simpa using h
    simp [natToBytesBE, this]
  | succ w ih =>
    have hmod : u % 256 ^ w < 256 ^ w := Nat.mod_lt _ (Nat.pos_pow_of_pos w (by omega))
    have hdiv : u / 256 ^ w < 256 := by
      apply Nat.div_lt_of_lt_mul
      calc u < 256 ^ (w + 1) := h
        _ = 256 ^ w * 256 := by ring
    have hdm : u / 256 ^ w % 256 = u / 256 ^ w := Nat.mod_eq_of_lt hdiv
    simp only [natToBytesBE, List.foldl_cons]
    rw [ih _ _ hmod, hdm]
    have hrec : 256 ^ w * (u / 256 ^ w) + u % 256 ^ w = u := Nat.div_add_mod u (256 ^ w)
    have hpow : (256 : Nat) ^ (w + 1) = 256 ^ w * 256 := by ring
    calc (acc * 256 + u / 256 ^ w) * 256 ^ w + u % 256 ^ w
        = acc * (256 ^ w * 256) + (256 ^ w * (u / 256 ^ w) + u % 256 ^ w) := by ring
      _ = acc * 256 ^ (w + 1) + u := by rw [hrec, hpow]

theorem uuidFromBytes_uuidBytes (u : Uuid) (h : u < 2 ^ 128) :
    uuidFromBytes (uuidBytes u) = u := by
  have h' : u < 256 ^ 16 := by
    have he : (2 : Nat) ^ 128 = 256 ^ 16 := by norm_num
    rw [← he]
    exact h
  unfold uuidFromBytes uuidBytes
  rw [foldl_natToBytesBE 16 u 0 h']
  simp

theorem chunk_length_le_remaining (pos : Nat) (v c : Bytes) (hv : v.length = 16) :
    (VersionBytesBuf.mk pos v c).chunk.length ≤
      (VersionBytesBuf.mk pos v c).remaining := by
  unfold VersionBytesBuf.chunk VersionBytesBuf.remaining VERSION_LEN
  dsimp only
  by_cases hp : pos < 16
  · rw [if_pos hp, List.length_drop, hv]
    omega
  · rw [if_neg hp]
    by_cases hc : c.length ≤ pos - 16
    · rw [if_pos hc]
      simp

    · rw [if_neg hc, List.length_drop]
      omega

theorem chunk_length_pos (pos : Nat) (v c : Bytes) (hv : v.length = 16)
    (hrem : 0 < (VersionBytesBuf.mk pos v c).remaining) :
    0 < (VersionBytesBuf.mk pos v c).chunk.length := by
  unfold VersionBytesBuf.remaining VERSION_LEN at hrem
  dsimp only at hrem
  unfold VersionBytesBuf.chunk VERSION_LEN
  dsimp only
  by_cases hp : pos < 16
  · rw [if_pos hp, List.length_drop, hv]
    omega
  · have hc : ¬ c.length ≤ pos - 16 := by omega
    rw [if_neg hp, if_neg hc, List.length_drop]
    omega

theorem chunk_take_eq (pos : Nat) (v c : Bytes) (hv : v.length = 16) (k : Nat)
    (hk : k ≤ (VersionBytesBuf.mk pos v c).chunk.length) :
    (VersionBytesBuf.mk pos v c).chunk.take k = ((v ++ c).drop pos).take k := by
  unfold VersionBytesBuf.chunk VERSION_LEN at hk ⊢
  dsimp only at hk ⊢
  by_cases hp : pos < 16
  · rw [if_pos hp] at hk ⊢
    rw [List.drop_append_of_le_length (by omega)]
    rw [List.take_append_of_le_length hk]
  · rw [if_neg hp] at hk ⊢
    by_cases hc : c.length ≤ pos - 16
    · rw [if_pos hc] at hk ⊢
      have hk0 : k = 0 := by simpa using hk
      subst hk0
      simp
    · rw [if_neg hc] at hk ⊢
      have hd : (v ++ c).drop pos = c.drop (pos - 16) := by
        rw [List.drop_append_eq_append_drop]
        rw [List.drop_eq_nil_of_le (by omega)]
        rw [hv]
        simp
      rw [hd]

theorem drop_take_drop (l : List Nat) (pos k : Nat) :
    (l.drop pos).take k ++ l.drop (pos + k) = l.drop pos := by
  have h1 : l.drop (pos + k) = (l.drop pos).drop k := by
    rw [List.drop_drop]
  rw [h1, List.take_append_drop]

/-- Any successful chunked consumption of the byte source starting at
`pos` yields exactly the suffix of `version ++ content` from `pos`. -/
theorem consumeBuf_eq (steps : List Nat) (pos : Nat) (v c : Bytes)
    (hv : v.length = 16) (hpos : pos ≤ 16 + c.length) (out : Bytes)
    (h : consumeBuf ⟨pos, v, c⟩ steps = some out) :
    out = (v ++ c).drop pos := by
  induction steps generalizing pos out with
  | nil =>
    unfold consumeBuf at h
    by_cases hrem : (VersionBytesBuf.mk pos v c).remaining = 0
    · rw [if_pos hrem] at h
      have hp : pos = 16 + c.length := by
        unfold VersionBytesBuf.remaining VERSION_LEN at hrem
        dsimp only at hrem
        omega
      have hout : out = [] := by
        injection h with h2
        exact h2.symm
      subst hout
      rw [hp, List.drop_eq_nil_of_le (by simp [hv])]
    · rw [if_neg hrem] at h
      cases h
  | cons k ks ih =>
    unfold consumeBuf at h
    by_cases hk : k ≤ (VersionBytesBuf.mk pos v c).chunk.length
    · rw [if_pos hk] at h
      rcases hco : consumeBuf ((VersionBytesBuf.mk pos v c).advance k) ks with _ | rest
      · rw [hco] at h
        cases h
      · rw [hco] at h
        have hout : out = (VersionBytesBuf.mk pos v c).chunk.take k ++ rest := by
          injection h with h2
          exact h2.symm
        have hkrem : k ≤ (VersionBytesBuf.mk pos v c).remaining :=
          le_trans hk (chunk_length_le_remaining pos v c hv)
        have hpos' : pos + k ≤ 16 + c.length := by
          unfold VersionBytesBuf.remaining VERSION_LEN at hkrem
          dsimp only at hkrem
          omega
        have hr := ih (pos + k) hpos' rest hco
        subst hout
        rw [chunk_take_eq pos v c hv k hk, hr]
        exact drop_take_drop (v ++ c) pos k
    · rw [if_neg hk] at h
      cases h

/-- The serialize loop yields the suffix of `version ++ content` from
the current position whenever enough fuel remains. -/
theorem serializeLoop_eq (fuel pos : Nat) (v c : Bytes) (hv : v.length = 16)
    (hpos : pos ≤ 16 + c.length)
    (hfuel : (VersionBytesBuf.mk pos v c).remaining ≤ fuel) :
    serializeLoop fuel ⟨pos, v, c⟩ = (v ++ c).drop pos := by
  induction fuel generalizing pos with
  | zero =>
    have hp : pos = 16 + c.length := by
      unfold VersionBytesBuf.remaining VERSION_LEN at hfuel
      dsimp only at hfuel
      omega
    rw [hp]
    rw [List.drop_eq_nil_of_le (by simp [hv])]
    rfl
  | succ fuel ih =>
    unfold serializeLoop
    by_cases hrem : 0 < (VersionBytesBuf.mk pos v c).remaining
    · rw [if_pos hrem]
      have hlen := chunk_length_pos pos v c hv hrem
      have hlenle := chunk_length_le_remaining pos v c hv
      set len := (VersionBytesBuf.mk pos v c).chunk.length with hlendef
      have hpos' : pos + len ≤ 16 + c.length := by
        unfold VersionBytesBuf.remaining VERSION_LEN at hlenle
        dsimp only at hlenle
        omega
      have hfuel' : (VersionBytesBuf.mk (pos + len) v c).remaining ≤ fuel := by
        unfold VersionBytesBuf.remaining VERSION_LEN at hfuel hrem ⊢
        dsimp only at hfuel hrem ⊢
        omega
      have hrec := ih (pos + len) hpos' hfuel'
      show (VersionBytesBuf.mk pos v c).chunk ++
        serializeLoop fuel ⟨pos + len, v, c⟩ = (v ++ c).drop pos
      rw [hrec]
      have hchunk : (VersionBytesBuf.mk pos v c).chunk =
          ((v ++ c).drop pos).take len := by
        rw [← chunk_take_eq pos v c hv len (le_refl _)]
        simp [hlendef]
      rw [hchunk]
      exact drop_take_drop (v ++ c) pos len
    · rw [if_neg hrem]
      have hp : pos = 16 + c.length := by
        unfold VersionBytesBuf.remaining VERSION_LEN at hrem
        dsimp only at hrem
        omega
      rw [hp]
      rw [List.drop_eq_nil_of_le (by simp [hv])]

theorem VClock.inc_apply_get_self (vc : VClock) (a : Uuid) :
    (vc.applyDot (vc.inc a)).get a = vc.get a + 1 := by
  unfold VClock.inc
  rw [VClock.applyDot_get]
  simp

theorem VClock.inc_apply_get_other (vc : VClock) (a b : Uuid) (h : b ≠ a) :
    (vc.applyDot (vc.inc a)).get b = vc.get b := by
  unfold VClock.inc
  rw [VClock.applyDot_get]
  simp [h]

theorem filter_not_contains_self (l : List String) :
    l.filter (fun n => ! l.contains n) = [] := by
  rw [List.filter_eq_nil_iff]
  intro a ha
  simp [ha]

/-- C2: for every call to `apply_ops(ops)`, if the durable store of the
op blob (`store_ops`) fails, the call returns that error and no
in-memory replica state is mutated: the record — in particular the state
CRDT and `next_op_versions` with the local actor's unrecorded reserved
version — is returned unchanged. -/
theorem apply_ops_store_failure_no_mutation {σ Op : Type}
    (applyOp : σ → Op → σ) (serializeOps : List Op → Bytes)
    (encrypt : Key → Bytes → Except String Bytes)
    (storeOps : Uuid → Nat → VersionBytes → Except String Unit)
    (currentDataVersion : Uuid) (d : CoreMutData σ) (ops : List Op)
    (key : Key) (lm : LocalMeta) (msg : String)
    (hkey : d.keys.latestKey = some key)
    (henc : ∀ b, ∃ eb, encrypt key b = .ok eb)
    (hlm : d.local_meta = some lm)
    (hstore : ∀ a v b, storeOps a v b = .error msg) :
    applyOps applyOp serializeOps encrypt storeOps currentDataVersion d ops =
      (d, .err msg) := by
  obtain ⟨eb, heb⟩ := henc (VersionBytes.toVec ⟨currentDataVersion, serializeOps ops⟩)
  unfold applyOps
  rw [hkey]
  simp only [heb, hlm, hstore]

theorem apply_ops_store_failure_no_mutation_witness :
    exampleData.keys.latestKey = some exampleKey ∧
    exampleData.local_meta = some ⟨7⟩ ∧
    applyOps (fun (s o : Nat) => s + o) (fun _ => []) (fun _ _ => .ok [])
        (fun _ _ _ => .error "disk full") CURRENT_VERSION exampleData [2, 3] =
      (exampleData, .err "disk full") :=
  ⟨by decide, rfl,
    apply_ops_store_failure_no_mutation (fun s o => s + o) (fun _ => [])
      (fun _ _ => .ok []) (fun _ _ _ => .error "disk full") CURRENT_VERSION
      exampleData [2, 3] exampleKey ⟨7⟩ "disk full" (by decide)
      (fun b => ⟨[], rfl⟩) rfl (fun _ _ _ => rfl)⟩

/-- C10: a successful `apply_ops(ops)` call modifies only the user state
CRDT (applying exactly the given ops) and the local actor's entry in
`next_op_versions` (incremented by exactly one); `local_meta`,
`remote_meta`, `keys`, `read_states`, `read_remote_metas` and every
other actor's clock entry are unchanged. -/
theorem apply_ops_frame {σ Op : Type}
    (applyOp : σ → Op → σ) (serializeOps : List Op → Bytes)
    (encrypt : Key → Bytes → Except String Bytes)
    (storeOps : Uuid → Nat → VersionBytes → Except String Unit)
    (currentDataVersion : Uuid) (d : CoreMutData σ) (ops : List Op)
    (key : Key) (lm : LocalMeta)
    (hkey : d.keys.latestKey = some key)
    (henc : ∀ b, ∃ eb, encrypt key b = .ok eb)
    (hlm : d.local_meta = some lm)
    (hstore : ∀ a v b, storeOps a v b = .ok ()) :
    (applyOps applyOp serializeOps encrypt storeOps currentDataVersion d ops).2 =
        .ok () ∧
    (applyOps applyOp serializeOps encrypt storeOps currentDataVersion
        d ops).1.state.state = ops.foldl applyOp d.state.state ∧
    (applyOps applyOp serializeOps encrypt storeOps currentDataVersion
        d ops).1.state.next_op_versions.get lm.local_actor_id =
      d.state.next_op_versions.get lm.local_actor_id + 1 ∧
    (∀ b, b ≠ lm.local_actor_id →
      (applyOps applyOp serializeOps encrypt storeOps currentDataVersion
          d ops).1.state.next_op_versions.get b =
        d.state.next_op_versions.get b) ∧
    (applyOps applyOp serializeOps encrypt storeOps currentDataVersion
        d ops).1.local_meta = d.local_meta ∧
    (applyOps applyOp serializeOps encrypt storeOps currentDataVersion
        d ops).1.remote_meta = d.remote_meta ∧
    (applyOps applyOp serializeOps encrypt storeOps currentDataVersion
        d ops).1.keys = d.keys ∧
    (applyOps applyOp serializeOps encrypt storeOps currentDataVersion
        d ops).1.read_states = d.read_states ∧
    (applyOps applyOp serializeOps encrypt storeOps currentDataVersion
        d ops).1.read_remote_metas = d.read_remote_metas := by
  obtain ⟨eb, heb⟩ := henc (VersionBytes.toVec ⟨currentDataVersion, serializeOps ops⟩)
  unfold applyOps
  rw [hkey]
  simp only [heb, hlm, hstore]
  refine ⟨trivial, trivial, ?_, ?_, trivial, trivial, trivial, trivial, trivial⟩
  · exact VClock.inc_apply_get_self d.state.next_op_versions lm.local_actor_id
  · intro b hb
    exact VClock.inc_apply_get_other d.state.next_op_versions lm.local_actor_id b hb

theorem apply_ops_frame_witness :
    exampleData.keys.latestKey = some exampleKey ∧
    ((applyOps (fun (s o : Nat) => s + o) (fun _ => []) (fun _ _ => .ok [])
        (fun _ _ _ => .ok ()) CURRENT_VERSION exampleData [2, 3]).2 = .ok () ∧
      (applyOps (fun (s o : Nat) => s + o) (fun _ => []) (fun _ _ => .ok [])
          (fun _ _ _ => .ok ()) CURRENT_VERSION exampleData [2, 3]).1.state.state =
        [2, 3].foldl (fun s o => s + o) exampleData.state.state ∧
      (applyOps (fun (s o : Nat) => s + o) (fun _ => []) (fun _ _ => .ok [])
          (fun _ _ _ => .ok ()) CURRENT_VERSION exampleData
          [2, 3]).1.state.next_op_versions.get (7 : Uuid) =
        exampleData.state.next_op_versions.get (7 : Uuid) + 1 ∧
      (∀ b, b ≠ (7 : Uuid) →
        (applyOps (fun (s o : Nat) => s + o) (fun _ => []) (fun _ _ => .ok [])
            (fun _ _ _ => .ok ()) CURRENT_VERSION exampleData
            [2, 3]).1.state.next_op_versions.get b =
          exampleData.state.next_op_versions.get b) ∧
      (applyOps (fun (s o : Nat) => s + o) (fun _ => []) (fun _ _ => .ok [])
          (fun _ _ _ => .ok ()) CURRENT_VERSION exampleData
          [2, 3]).1.local_meta = exampleData.local_meta ∧
      (applyOps (fun (s o : Nat) => s + o) (fun _ => []) (fun _ _ => .ok [])
          (fun _ _ _ => .ok ()) CURRENT_VERSION exampleData
          [2, 3]).1.remote_meta = exampleData.remote_meta ∧
      (applyOps (fun (s o : Nat) => s + o) (fun _ => []) (fun _ _ => .ok [])
          (fun _ _ _ => .ok ()) CURRENT_VERSION exampleData
          [2, 3]).1.keys = exampleData.keys ∧
      (applyOps (fun (s o : Nat) => s + o) (fun _ => []) (fun _ _ => .ok [])
          (fun _ _ _ => .ok ()) CURRENT_VERSION exampleData
          [2, 3]).1.read_states = exampleData.read_states ∧
      (applyOps (fun (s o : Nat) => s + o) (fun _ => []) (fun _ _ => .ok [])
          (fun _ _ _ => .ok ()) CURRENT_VERSION exampleData
          [2, 3]).1.read_remote_metas = exampleData.read_remote_metas) :=
  ⟨by decide,
    apply_ops_frame (fun s o => s + o) (fun _ => []) (fun _ _ => .ok [])
      (fun _ _ _ => .ok ()) CURRENT_VERSION exampleData [2, 3] exampleKey ⟨7⟩
      (by decide) (fun b => ⟨[], rfl⟩) rfl (fun _ _ _ => rfl)⟩

/-- C3: in the commit loop of `read_remote_ops`, for each decoded entry
`(actor, version, ops)` processed in order: a version below the actor's
expected next version is skipped with no state change; a version above
it fails the whole call with an error; an exact match applies every op
of the entry to the state and increments the actor's vector-clock entry
by exactly one (every other actor's entry unchanged). -/
theorem read_remote_ops_commit_cases {σ Op : Type} (applyOp : σ → Op → σ)
    (actor : Uuid) (version : Nat) (ops : List Op)
    (rest : List (Uuid × Nat × List Op)) (sw : StateWrapper σ) (flag : Bool) :
    (version < sw.next_op_versions.get actor →
      readRemoteOpsCommit applyOp ((actor, version, ops) :: rest) sw flag =
        readRemoteOpsCommit applyOp rest sw flag) ∧
    (sw.next_op_versions.get actor < version →
      readRemoteOpsCommit applyOp ((actor, version, ops) :: rest) sw flag =
        .error "Unexpected op version. Got ops in the wrong order? Bug in storage?") ∧
    (version = sw.next_op_versions.get actor →
      readRemoteOpsCommit applyOp ((actor, version, ops) :: rest) sw flag =
        readRemoteOpsCommit applyOp rest
          ⟨sw.next_op_versions.applyDot (sw.next_op_versions.inc actor),
            ops.foldl applyOp sw.state⟩ true ∧
      (sw.next_op_versions.applyDot (sw.next_op_versions.inc actor)).get actor =
        sw.next_op_versions.get actor + 1 ∧
      ∀ b, b ≠ actor →
        (sw.next_op_versions.applyDot (sw.next_op_versions.inc actor)).get b =
          sw.next_op_versions.get b) := by
  refine ⟨?_, ?_, ?_⟩
  · intro hlt
    conv_lhs => unfold readRemoteOpsCommit
    rw [if_pos hlt]
  · intro hgt
    conv_lhs => unfold readRemoteOpsCommit
    rw [if_neg (by omega), if_pos hgt]
  · intro heq
    refine ⟨?_, VClock.inc_apply_get_self sw.next_op_versions actor,
      fun b hb => VClock.inc_apply_get_other sw.next_op_versions actor b hb⟩
    conv_lhs => unfold readRemoteOpsCommit
    rw [if_neg (by omega), if_neg (by omega)]

theorem read_remote_ops_commit_cases_witness :
    ((1 : Nat) < (⟨⟨[(7, 2)]⟩, (0 : Nat)⟩ : StateWrapper Nat).next_op_versions.get 7 ∧
      readRemoteOpsCommit (fun (s o : Nat) => s + o) [((7 : Uuid), 1, [10])]
          ⟨⟨[(7, 2)]⟩, 0⟩ false =
        readRemoteOpsCommit (fun (s o : Nat) => s + o) [] ⟨⟨[(7, 2)]⟩, 0⟩ false) ∧
    ((⟨⟨[(7, 2)]⟩, (0 : Nat)⟩ : StateWrapper Nat).next_op_versions.get 7 < 5 ∧
      readRemoteOpsCommit (fun (s o : Nat) => s + o) [((7 : Uuid), 5, [10])]
          ⟨⟨[(7, 2)]⟩, 0⟩ false =
        .error "Unexpected op version. Got ops in the wrong order? Bug in storage?") ∧
    ((2 : Nat) = (⟨⟨[(7, 2)]⟩, (0 : Nat)⟩ : StateWrapper Nat).next_op_versions.get 7 ∧
      readRemoteOpsCommit (fun (s o : Nat) => s + o) [((7 : Uuid), 2, [10, 20])]
          ⟨⟨[(7, 2)]⟩, 0⟩ false =
        readRemoteOpsCommit (fun (s o : Nat) => s + o) []
          ⟨(⟨[(7, 2)]⟩ : VClock).applyDot ((⟨[(7, 2)]⟩ : VClock).inc 7),
            [10, 20].foldl (fun s o => s + o) 0⟩ true) :=
  ⟨⟨by decide,
    (read_remote_ops_commit_cases (fun (s o : Nat) => s + o) 7 1 [10] []
      ⟨⟨[(7, 2)]⟩, 0⟩ false).1 (by decide)⟩,
  ⟨by decide,
    (read_remote_ops_commit_cases (fun (s o : Nat) => s + o) 7 5 [10] []
      ⟨⟨[(7, 2)]⟩, 0⟩ false).2.1 (by decide)⟩,
  ⟨by decide,
    ((read_remote_ops_commit_cases (fun (s o : Nat) => s + o) 7 2 [10, 20] []
      ⟨⟨[(7, 2)]⟩, 0⟩ false).2.2 (by decide)).1⟩⟩

/-- C7: whenever the key-bootstrap step of `Core::open` completes, the
registry has a latest key: `keys.latest_key()` is `Some`, so the
"no latest key" precondition error cannot occur in a subsequent call
made without further key changes.  (The freshly generated key's id is a
new v4 UUID, hence the freshness hypothesis.) -/
theorem open_bootstrap_latest_key_some (actor : Uuid) (newKey : Key) (ks : Keys)
    (hfresh : ∀ p ∈ ks.keys.entries, p.1.id ≠ newKey.id) :
    (openKeysBootstrap actor newKey ks).latestKey.isSome := by
  unfold openKeysBootstrap
  by_cases h : ks.latestKey.isNone
  · rw [if_pos h, Keys.insertLatestKey_latestKey ks actor newKey hfresh]
    rfl
  · rw [if_neg h]
    cases hv : ks.latestKey with
    | none => rw [hv] at h; exact absurd rfl h
    | some k => rfl

theorem open_bootstrap_latest_key_some_witness :
    (∀ p ∈ (Keys.empty).keys.entries, p.1.id ≠ exampleKey.id) ∧
    (openKeysBootstrap 7 exampleKey Keys.empty).latestKey.isSome :=
  ⟨by decide, open_bootstrap_latest_key_some 7 exampleKey Keys.empty (by decide)⟩

/-- C8: `latest_key()` reads all current values of `latest_key_id`,
resolves each against the key set and returns the resolved key with the
smallest UUID ordering — it agrees with the specification's lookup
formula (`specLatestKey`), the returned key is minimal by id among the
resolved candidates, equal merged `Keys` values yield the same latest
key, and after `insert_latest_key(a, k)` on a single replica,
`latest_key()` returns `k`. -/
theorem latest_key_spec_and_insert (ks : Keys) (actor : Uuid) (k : Key)
    (hids : ks.latest_key_id.readVals.Nodup)
    (hkeys : (ks.keys.readVals.map Key.id).Nodup)
    (hfresh : ∀ p ∈ ks.keys.entries, p.1.id ≠ k.id) :
    ks.latestKey = ks.specLatestKey ∧
    (∀ m, ks.latestKey = some m →
      m ∈ resolveIds ks.latest_key_id.readVals ks.keys.readVals ∧
      ∀ c ∈ resolveIds ks.latest_key_id.readVals ks.keys.readVals, m.id ≤ c.id) ∧
    (∀ ks2 : Keys, ks2 = ks → ks2.latestKey = ks.latestKey) ∧
    (ks.insertLatestKey actor k).latestKey = some k := by
  refine ⟨?_, ?_, ?_, Keys.insertLatestKey_latestKey ks actor k hfresh⟩
  · unfold Keys.latestKey Keys.specLatestKey
    rw [resolveIds_eq_filterMap _ _ hids hkeys]
  · intro m hm
    exact minByIdFirst_spec _ m hm
  · intro ks2 h
    rw [h]

theorem latest_key_spec_and_insert_witness :
    (exampleKeys.latest_key_id.readVals.Nodup ∧
      (exampleKeys.keys.readVals.map Key.id).Nodup ∧
      (∀ p ∈ exampleKeys.keys.entries, p.1.id ≠ (9 : Uuid))) ∧
    (exampleKeys.latestKey = exampleKeys.specLatestKey ∧
      (∀ m, exampleKeys.latestKey = some m →
        m ∈ resolveIds exampleKeys.latest_key_id.readVals exampleKeys.keys.readVals ∧
        ∀ c ∈ resolveIds exampleKeys.latest_key_id.readVals exampleKeys.keys.readVals,
          m.id ≤ c.id) ∧
      (∀ ks2 : Keys, ks2 = exampleKeys → ks2.latestKey = exampleKeys.latestKey) ∧
      (exampleKeys.insertLatestKey 8 ⟨9, ⟨CURRENT_VERSION, [2]⟩⟩).latestKey =
        some ⟨9, ⟨CURRENT_VERSION, [2]⟩⟩) :=
  ⟨⟨by decide, by decide, by decide⟩,
    latest_key_spec_and_insert exampleKeys 8 ⟨9, ⟨CURRENT_VERSION, [2]⟩⟩
      (by decide) (by decide) (by decide)⟩

/-- C9 as stated is false: a `Keys` value can hold one dangling
`latest_key_id` value and one resolvable one; `latest_key()` then
returns the resolved key, not `None`. -/
theorem latest_key_mixed_dangling_not_none :
    (∃ i ∈ mixedKeys.latest_key_id.readVals,
      ∀ k ∈ mixedKeys.keys.readVals, k.id ≠ i) ∧
    mixedKeys.latestKey ≠ none := by
  constructor
  · refine ⟨99, by decide, by decide⟩
  · decide

/-- C9 (amended): dangling latest-key pointers are benign — values of
`latest_key_id` without a matching key are skipped, and when no value
resolves, `latest_key()` returns `None` rather than failing. -/
theorem latest_key_all_dangling_none (ks : Keys)
    (h : ∀ i ∈ ks.latest_key_id.readVals, ∀ k ∈ ks.keys.readVals, k.id ≠ i) :
    ks.latestKey = none :=
  Keys.latestKey_all_dangling ks h

theorem latest_key_all_dangling_none_witness :
    (∀ i ∈ danglingKeys.latest_key_id.readVals,
      ∀ k ∈ danglingKeys.keys.readVals, k.id ≠ i) ∧
    danglingKeys.latestKey = none :=
  ⟨by decide, latest_key_all_dangling_none danglingKeys (by decide)⟩

/-- C1: after actor 7 wrote ops 0, 1 and 2 (`next_op_versions = {7 ↦ 3}`
in `exampleData`), a successful `compact` requests removal of only the
dot `(7, 2)` — `(actor, counter − 1)` per actor — and the tokio driver's
`remove_ops` then removes exactly that one file, leaving the op blobs
`ops/7/0` and `ops/7/1` on the remote store, contrary to the claim that
no blobs remain under `ops/<actor>/`. -/
theorem compact_leaves_earlier_op_blobs :
    (compactBody (fun _ => []) (fun _ _ => .ok []) (fun _ => .ok "new")
        (fun ns => .ok ns) (fun _ => .ok ()) CURRENT_VERSION exampleData).2 =
      .ok () ∧
    compactOpsToRemove exampleData.state.next_op_versions = [(7, 2)] ∧
    removeOpsTokio [(7, 0), (7, 1), (7, 2)]
        (compactOpsToRemove exampleData.state.next_op_versions) =
      [(7, 0), (7, 1)] ∧
    removeOpsTokio [(7, 0), (7, 1), (7, 2)]
        (compactOpsToRemove exampleData.state.next_op_versions) ≠ [] := by
  refine ⟨by decide, by decide, by decide, by decide⟩

/-- C4 is violated by the code: when the cipher capability's `encrypt`
returns an error during `compact` or `apply_ops`, or its `decrypt`
returns an error during `read_remote_ops`, the engine does not return
the error to the caller — the source calls `.unwrap()` on the result and
panics. -/
theorem cipher_error_panics :
    (compactBody (fun _ => []) (fun _ _ => .error "enc fail")
        (fun _ => .ok "new") (fun ns => .ok ns) (fun _ => .ok ())
        CURRENT_VERSION exampleData).2 = .panic ∧
    (applyOps (fun (s o : Nat) => s + o) (fun _ => [])
        (fun _ _ => .error "enc fail") (fun _ _ _ => .ok ())
        CURRENT_VERSION exampleData [1]).2 = .panic ∧
    readRemoteOpsDecode (fun _ _ => .error "dec fail")
        (fun _ => .ok ([] : List Nat)) [CURRENT_VERSION] exampleKey
        [(7, 0, ⟨CURRENT_VERSION, [3]⟩)] = .panic := by
  refine ⟨by decide, by decide, by decide⟩

/-- C6 as stated is false: the tokio driver's `remove_states` returns
the requested names verbatim (`Ok(names)`), so a name whose blob did not
exist ("b" here, with only "a" present) is still reported as removed. -/
theorem remove_states_reports_missing_as_removed :
    (removeStatesTokio ["a"] ["a", "b"]).2 = ["a", "b"] ∧
    "b" ∈ (removeStatesTokio ["a"] ["a", "b"]).2 ∧
    "b" ∉ ["a"] := by
  refine ⟨rfl, by decide, by decide⟩

/-- C6 (amended): `remove_states` returns exactly the requested names,
whether or not each blob existed, and `compact` removes the returned
names from `read_states` before inserting the new snapshot's name — so
after a successful compact, `read_states` is exactly the new snapshot's
name. -/
theorem remove_states_returns_requested_and_compact_updates {σ : Type}
    (store : List String)
    (serializeState : StateWrapper σ → Bytes)
    (encrypt : Key → Bytes → Except String Bytes)
    (storeState : VersionBytes → Except String String)
    (currentDataVersion : Uuid) (d : CoreMutData σ)
    (key : Key) (newName : String)
    (hkey : d.keys.latestKey = some key)
    (henc : ∀ b, ∃ eb, encrypt key b = .ok eb)
    (hstore : ∀ vb, storeState vb = .ok newName) :
    (∀ names, (removeStatesTokio store names).2 = names) ∧
    (compactBody serializeState encrypt storeState
        (fun ns => .ok (removeStatesTokio store ns).2) (fun _ => .ok ())
        currentDataVersion d).1.read_states = [newName] := by
  refine ⟨fun names => rfl, ?_⟩
  obtain ⟨eb, heb⟩ := henc (serializeState d.state)
  unfold compactBody
  rw [hkey]
  simp only [heb, hstore, removeStatesTokio]
  rw [filter_not_contains_self]
  rfl

theorem remove_states_returns_requested_and_compact_updates_witness :
    exampleData.keys.latestKey = some exampleKey ∧
    ((∀ names, (removeStatesTokio ["s1", "x"] names).2 = names) ∧
      (compactBody (fun (_ : StateWrapper Nat) => [])
          (fun _ _ => .ok []) (fun _ => .ok "new")
          (fun ns => .ok (removeStatesTokio ["s1", "x"] ns).2) (fun _ => .ok ())
          CURRENT_VERSION exampleData).1.read_states = ["new"]) :=
  ⟨by decide,
    remove_states_returns_requested_and_compact_updates ["s1", "x"]
      (fun _ => []) (fun _ _ => .ok []) (fun _ => .ok "new") CURRENT_VERSION
      exampleData exampleKey "new" (by decide) (fun b => ⟨[], rfl⟩)
      (fun _ => rfl)⟩

/-- C5: for every version UUID `u` and byte payload `b`, serializing
yields exactly the 16 bytes of `u` followed by `b`; the same bytes are
produced by any chunked `advance` consumption of `buf()` and by its
vectored reads; and deserializing them yields `(u, b)` back. -/
theorem version_bytes_roundtrip (u : Uuid) (b : Bytes) (hu : u < 2 ^ 128) :
    versionBytesSerialize u b = uuidBytes u ++ b ∧
    versionBytesFromSlice (versionBytesSerialize u b) = .ok (u, b) ∧
    (∀ steps out, consumeBuf (VersionBytesBuf.new u b) steps = some out →
      out = uuidBytes u ++ b) ∧
    (∀ n, 2 ≤ n →
      ((VersionBytesBuf.new u b).chunksVectored n).flatten = uuidBytes u ++ b) := by
  have hv : (uuidBytes u).length = 16 := uuidBytes_length u
  have hser : versionBytesSerialize u b = uuidBytes u ++ b := by
    unfold versionBytesSerialize VersionBytesBuf.new
    rw [serializeLoop_eq _ 0 (uuidBytes u) b hv (by omega) (by omega)]
    simp
  refine ⟨hser, ?_, ?_, ?_⟩
  · rw [hser]
    unfold versionBytesFromSlice
    rw [if_neg (by simp [hv])]
    have ht : (uuidBytes u ++ b).take 16 = uuidBytes u := by
      rw [← hv, List.take_left]
    have hd : (uuidBytes u ++ b).drop 16 = b := by
      rw [← hv, List.drop_left]
    rw [ht, hd, uuidFromBytes_uuidBytes u hu]
  · intro steps out h
    exact (consumeBuf_eq steps 0 (uuidBytes u) b hv (by omega) out h).trans
      (by simp)
  · intro n hn
    unfold VersionBytesBuf.chunksVectored VersionBytesBuf.new VERSION_LEN
    dsimp only
    rw [if_neg (by omega), if_pos (by omega), if_neg (by omega)]
    simp

theorem version_bytes_roundtrip_witness :
    (3 : Uuid) < 2 ^ 128 ∧
    (versionBytesSerialize 3 [1, 2, 3] = uuidBytes 3 ++ [1, 2, 3] ∧
      versionBytesFromSlice (versionBytesSerialize 3 [1, 2, 3]) = .ok (3, [1, 2, 3]) ∧
      (∀ steps out, consumeBuf (VersionBytesBuf.new 3 [1, 2, 3]) steps = some out →
        out = uuidBytes 3 ++ [1, 2, 3]) ∧
      (∀ n, 2 ≤ n →
        ((VersionBytesBuf.new 3 [1, 2, 3]).chunksVectored n).flatten =
          uuidBytes 3 ++ [1, 2, 3])) :=
  ⟨by decide, version_bytes_roundtrip 3 [1, 2, 3] (by decide)⟩

end CrdtEnc
